import Mathlib

/-!
# Word-selection-under-cursor subsystem of `ocr-tool`

Shallow embedding of `src/ui/hover_tool.py` (classes `CaptureConfig`,
`TextProcessor`, `OCRProcessor`, `WordSelector`, `HoverTool`) and proofs about
it.

Conventions of the embedding:

* Python strings are `List Char`; `len`, slicing and offsets are list
  operations.  `str.strip()` is `pyStrip`, the regex class `\s` (on the
  ASCII whitespace the tool's inputs contain) is `pySpace`.
* Python numbers (Qt integer coordinates and OCR confidence floats) are
  embedded as exact rationals `ℚ` (Qt points as `ℤ`); floating-point rounding
  is idealised away.
* The single irrational operation of the source, `(...) ** 0.5` in the two
  distance computations, is kept exact: the executable functions carry the
  *squared* distances and compare them with exact algebraic comparators
  (`sqrtLtAdd`, `scoreLt`); the bridge lemmas `sqrtLtAdd_iff` and
  `scoreLt_iff` prove that these comparators decide precisely the real-valued
  `Real.sqrt` comparisons the source performs.
* External collaborators are parameters: `seg` embeds `jieba.tokenize`,
  `HoverEnv` bundles the Qt screen lookup, `grabWindow` screenshot and the
  OCR engine's `process_image` (which may raise: `Except String`).
* `HoverTool.capture_text_at_position` additionally returns the list of size
  tiers for which the capture capability was invoked, making the source's
  observable call sequence (mock call counts) explicit.
-/

namespace OcrTool

/-- Python `\s` / `str.strip()` whitespace, restricted to the ASCII whitespace
characters. -/
def pySpace (c : Char) : Bool :=
  decide (c = ' ' ∨ c = '\t' ∨ c = '\n' ∨ c = '\r' ∨ c = '\x0b' ∨ c = '\x0c')

/-- Python `str.strip()`: drop whitespace from both ends. -/
def pyStrip (cs : List Char) : List Char :=
  ((cs.dropWhile pySpace).reverse.dropWhile pySpace).reverse

/-- A `(word, start, end)` triple as produced by the tokenizers
(`jieba.tokenize` and `TextProcessor._space_tokenize`). -/
abbrev Tok := List Char × ℕ × ℕ

/-! ## CaptureConfig -/

namespace CaptureConfig

def SMALL_SIZE : ℕ × ℕ := (200, 80)

def MEDIUM_SIZE : ℕ × ℕ := (300, 120)

def LARGE_SIZE : ℕ × ℕ := (400, 160)

def MIN_TEXT_LENGTH : ℕ := 1

/-- `CONFIDENCE_THRESHOLD = 0.6`. -/
def CONFIDENCE_THRESHOLD : ℚ := 6/10

def MOUSE_INFLUENCE_RADIUS : ℚ := 40

end CaptureConfig

/-! ## TextProcessor -/

namespace TextProcessor

/-- Membership in the regex class `[a-zA-Z]` of `detect_language`. -/
def isEnglishChar (c : Char) : Bool :=
  decide (('a' ≤ c ∧ c ≤ 'z') ∨ ('A' ≤ c ∧ c ≤ 'Z'))

/-- Membership in the regex class
`[一-鿿㐀-䶿＀-￯　-〿]` of
`detect_language`. -/
def isCjkChar (c : Char) : Bool :=
  decide ((0x4e00 ≤ c.toNat ∧ c.toNat ≤ 0x9fff) ∨
          (0x3400 ≤ c.toNat ∧ c.toNat ≤ 0x4dbf) ∨
          (0xff00 ≤ c.toNat ∧ c.toNat ≤ 0xffef) ∨
          (0x3000 ≤ c.toNat ∧ c.toNat ≤ 0x303f))

/-- `TextProcessor.detect_language`: `(has_english, has_cjk)`. -/
def detect_language (text : List Char) : Bool × Bool :=
  (text.any isEnglishChar, text.any isCjkChar)

/-- The jieba-path punctuation / separator exclusion list
`['，', '。', '!', '?', ',', '.', ' ']` (full-string comparison). -/
def jiebaPunct : List (List Char) :=
  [['，'], ['。'], ['!'], ['?'], [','], ['.'], [' ']]

/-- `TextProcessor._jieba_tokenize`, with the external `jieba.tokenize`
collaborator as parameter `seg`. -/
def _jieba_tokenize (seg : List Char → List Tok) (text : List Char) : List Tok :=
  (seg text).filter fun t => decide (pyStrip t.1 ≠ [] ∧ t.1 ∉ jiebaPunct)

/-- The whitespace-path punctuation exclusion list
`['，', '。', '!', '?', ',', '.', ';', ':', '"', "'"]`. -/
def spacePunct : List (List Char) :=
  [['，'], ['。'], ['!'], ['?'], [','], ['.'], [';'], [':'], ['"'], ['\x27']]

/-- The scan performed by `re.finditer(r'\S+', text)`: one left-to-right pass;
`acc` holds the characters of the current non-whitespace run in reverse,
`start` the run's starting offset, `i` the current offset. -/
def spaceRunsAux : List Char → ℕ → List Char → ℕ → List Tok
  | [], i, acc, start => if acc = [] then [] else [(acc.reverse, start, i)]
  | c :: cs, i, acc, start =>
    if pySpace c then
      (if acc = [] then [] else [(acc.reverse, start, i)]) ++ spaceRunsAux cs (i + 1) [] (i + 1)
    else
      spaceRunsAux cs (i + 1) (c :: acc) (if acc = [] then i else start)

/-- The match list of `re.finditer(r'\S+', text)` with character offsets. -/
def spaceRuns (text : List Char) : List Tok :=
  spaceRunsAux text 0 [] 0

/-- `TextProcessor._space_tokenize`: the `\S+` matches, filtered by
`word.strip() and not (len(word) == 1 and word in [...])`. -/
def _space_tokenize (text : List Char) : List Tok :=
  (spaceRuns text).filter fun t =>
    decide (pyStrip t.1 ≠ [] ∧ ¬(t.1.length = 1 ∧ t.1 ∈ spacePunct))

/-- `TextProcessor.tokenize_text`: dispatch on `detect_language`. -/
def tokenize_text (seg : List Char → List Tok) (text : List Char) : List Tok :=
  let d := detect_language text
  if d.1 && d.2 then _jieba_tokenize seg text
  else if d.1 then _space_tokenize text
  else _jieba_tokenize seg text

/-- Spec-side formalisation of "the maximal runs of non-whitespace characters,
in left-to-right order of occurrence with their start/end character offsets":
skip whitespace; at a non-whitespace character the run is that character
followed by the maximal non-whitespace prefix of the remainder. -/
def maximalRuns : List Char → ℕ → List Tok
  | [], _ => []
  | c :: cs, i =>
    if pySpace c then maximalRuns cs (i + 1)
    else
      (c :: cs.takeWhile (fun d => !pySpace d), i,
        i + (c :: cs.takeWhile (fun d => !pySpace d)).length) ::
      maximalRuns (cs.dropWhile (fun d => !pySpace d))
        (i + (c :: cs.takeWhile (fun d => !pySpace d)).length)
termination_by cs _ => cs.length
decreasing_by
  · simp only [List.length_cons]; omega
  · exact Nat.lt_succ_of_le ((List.dropWhile_sublist _).length_le)

/-- Claim C7's exclusion set `，。！？,.;:"'` (fullwidth exclamation and
question marks, unlike the source's ASCII `!` and `?`). -/
def claimPunct : List (List Char) :=
  [['，'], ['。'], ['！'], ['？'], [','], ['.'], [';'], [':'], ['"'], ['\x27']]

/-- The whitespace tokenizer exactly as claim C7 words it: the maximal
non-whitespace runs, minus the runs that are a single character of
`claimPunct`. -/
def claimSpaceTokenize (text : List Char) : List Tok :=
  (maximalRuns text 0).filter fun t =>
    decide (¬(t.1.length = 1 ∧ t.1 ∈ claimPunct))

end TextProcessor

/-! ## Geometry and OCR fragments -/

/-- A point in capture-relative pixel coordinates (`relative_mouse_pos`). -/
structure Pt where
  x : ℚ
  y : ℚ
deriving DecidableEq

/-- An OCR bounding box `(min_x, max_x, min_y, max_y)` as unpacked by
`WordSelector`. -/
structure Box where
  minX : ℚ
  maxX : ℚ
  minY : ℚ
  maxY : ℚ
deriving DecidableEq

/-- One OCR text region `(text, box, confidence)`. -/
structure Frag where
  text : List Char
  box : Box
  conf : ℚ
deriving DecidableEq

/-- Python's `min`/`max(…, key=…)` builtins and the explicit
`if better: replace` scan loops of the source: fold over the list keeping the
incumbent unless `better new incumbent`.  On ties (`better = false`) the
earlier element is kept, exactly like Python's `min`/`max`. -/
def pickBest {α : Type} (better : α → α → Bool) : List α → Option α
  | [] => none
  | h :: t => some (t.foldl (fun best x => if better x best then x else best) h)

namespace WordSelector

/-- Squared version of `WordSelector._calculate_distance_to_box`:
`dx = max(min_x - x, 0, x - max_x)`, `dy = max(min_y - y, 0, y - max_y)`,
result `dx*dx + dy*dy`.  The source returns `(dx*dx + dy*dy) ** 0.5`; the
square is kept exact here and the square root is taken in
`_calculate_distance_to_box` below. -/
def distSqToBox (p : Pt) (box : Box) : ℚ :=
  let dx := max (box.minX - p.x) (max 0 (p.x - box.maxX))
  let dy := max (box.minY - p.y) (max 0 (p.y - box.maxY))
  dx * dx + dy * dy

/-- `WordSelector._calculate_distance_to_box`: the Euclidean distance from a
point to the nearest point of a box (zero inside). -/
noncomputable def _calculate_distance_to_box (p : Pt) (box : Box) : ℝ :=
  Real.sqrt (distSqToBox p box)

/-- Exact decision of `Real.sqrt a < Real.sqrt b + u` for rationals with
`0 ≤ a`, `0 ≤ b`; correctness is `sqrtLtAdd_iff`. -/
def sqrtLtAdd (a b u : ℚ) : Bool :=
  if u ≤ 0 ∧ b ≤ u ^ 2 then false
  else if 0 ≤ u then
    decide (a - b - u ^ 2 < 0) || decide ((a - b - u ^ 2) ^ 2 < 4 * u ^ 2 * b)
  else
    decide (a - b - u ^ 2 < 0) && decide (4 * u ^ 2 * b < (a - b - u ^ 2) ^ 2)

/-- Exact decision of the source's nearby-candidate key comparison
`d₁ * 2 - c₁ < d₂ * 2 - c₂` where `dᵢ = Real.sqrt dsqᵢ` is the distance to the
box; correctness is `scoreLt_iff`. -/
def scoreLt (dsq₁ conf₁ dsq₂ conf₂ : ℚ) : Bool :=
  sqrtLtAdd dsq₁ dsq₂ ((conf₁ - conf₂) / 2)

/-- The containment test of `_find_text_box_at_mouse`
(`min_x <= mx <= max_x and min_y <= my <= max_y`, inclusive bounds). -/
def boxContains (box : Box) (p : Pt) : Bool :=
  decide (box.minX ≤ p.x ∧ p.x ≤ box.maxX ∧ box.minY ≤ p.y ∧ p.y ≤ box.maxY)

/-- The influence-radius test of `_find_text_box_at_mouse`: containment in the
box expanded by `MOUSE_INFLUENCE_RADIUS` on all sides. -/
def boxNearContains (box : Box) (p : Pt) : Bool :=
  decide (box.minX - CaptureConfig.MOUSE_INFLUENCE_RADIUS ≤ p.x ∧
          p.x ≤ box.maxX + CaptureConfig.MOUSE_INFLUENCE_RADIUS ∧
          box.minY - CaptureConfig.MOUSE_INFLUENCE_RADIUS ≤ p.y ∧
          p.y ≤ box.maxY + CaptureConfig.MOUSE_INFLUENCE_RADIUS)

/-- `WordSelector._find_text_box_at_mouse`.  Tier 1: boxes containing the
point, `max` by confidence.  Tier 2: boxes whose expansion by the influence
radius contains the point, `min` by `distance * 2 - confidence`.  Tier 3:
global nearest box by strict-`<` scan.  Squared distances are carried; the
comparators decide exactly the source's real-valued comparisons. -/
def _find_text_box_at_mouse (filtered_results : List Frag) (mouse_pos : Pt) : Option Frag :=
  let candidates_inside := filtered_results.filter fun f => boxContains f.box mouse_pos
  match pickBest (fun x best => decide (best.conf < x.conf)) candidates_inside with
  | some best => some best
  | none =>
    let candidates_nearby :=
      (filtered_results.filter fun f => boxNearContains f.box mouse_pos).map
        fun f => (f, distSqToBox mouse_pos f.box)
    match pickBest (fun x best => scoreLt x.2 x.1.conf best.2 best.1.conf) candidates_nearby with
    | some best => some best.1
    | none =>
      pickBest
        (fun x best => decide (distSqToBox mouse_pos x.box < distSqToBox mouse_pos best.box))
        filtered_results

/-- Squared distance from the mouse to a token's centre in
`_select_word_from_text`: `word_start_x = x1 + start * avg_char_width`,
`word_end_x = x1 + end * avg_char_width`, centre the midpoint, vertical centre
the box midpoint.  The source compares `(...) ** 0.5` values; squares compare
identically. -/
def wordDistSq (box : Box) (avg_char_width : ℚ) (mouse_pos : Pt) (t : Tok) : ℚ :=
  let word_start_x := box.minX + (t.2.1 : ℚ) * avg_char_width
  let word_end_x := box.minX + (t.2.2 : ℚ) * avg_char_width
  let word_center_x := (word_start_x + word_end_x) / 2
  let word_center_y := (box.minY + box.maxY) / 2
  (word_center_x - mouse_pos.x) ^ 2 + (word_center_y - mouse_pos.y) ^ 2

/-- The distance the word loop of `_select_word_from_text` minimises, stated
as the source computes it: the Euclidean distance from the mouse to the
token's centre, with token spans derived from
`avg_char_width = box_width / len(text)`. -/
noncomputable def tokenCenterDist (box : Box) (text : List Char) (mouse_pos : Pt) (t : Tok) : ℝ :=
  Real.sqrt (wordDistSq box ((box.maxX - box.minX) / (text.length : ℚ)) mouse_pos t)

/-- `WordSelector._select_word_from_text`: tokenize, fall back to the whole
text on zero tokens, otherwise keep the token whose centre is nearest to the
mouse (strict-`<` scan, first minimum kept). -/
def _select_word_from_text (seg : List Char → List Tok) (text : List Char) (box : Box)
    (mouse_pos : Pt) : Option (List Char) :=
  let word_positions := TextProcessor.tokenize_text seg text
  if word_positions = [] then some text
  else
    let box_width := box.maxX - box.minX
    let text_length := text.length
    if text_length = 0 then none
    else
      let avg_char_width := box_width / (text_length : ℚ)
      match pickBest
          (fun t best => decide (wordDistSq box avg_char_width mouse_pos t <
                                 wordDistSq box avg_char_width mouse_pos best))
          word_positions with
      | some t => some t.1
      | none => none

/-- The candidate filter of `WordSelector.select_word_at_position`:
`conf >= CONFIDENCE_THRESHOLD and len(text.strip()) >= MIN_TEXT_LENGTH`.
The same condition is re-checked (conjuncts swapped) in
`HoverTool._is_valid_ocr_result`. -/
def fragPasses (f : Frag) : Bool :=
  decide (CaptureConfig.CONFIDENCE_THRESHOLD ≤ f.conf ∧
          CaptureConfig.MIN_TEXT_LENGTH ≤ (pyStrip f.text).length)

/-- The list comprehension filtering `ocr_results` in
`select_word_at_position`. -/
def filter_fragments (ocr_results : List Frag) : List Frag :=
  ocr_results.filter fragPasses

end WordSelector

/-! ## OCRProcessor and HoverTool -/

/-- A point in global screen coordinates (Qt `QPoint`, integer). -/
structure PtZ where
  x : ℤ
  y : ℤ
deriving DecidableEq

/-- A capture region `(x, y, width, height)` in global screen coordinates. -/
structure CaptureRect where
  x : ℤ
  y : ℤ
  w : ℕ
  h : ℕ
deriving DecidableEq

/-- The external collaborators of `OCRProcessor` / `HoverTool`:
the display's device pixel ratio, the jieba segmenter, `QGuiApplication.screenAt`
(`true` iff a screen exists at the point), `screen.grabWindow`
(`none` models a null screenshot) and the OCR engine's `process_image`
(`Except.error` models a raised exception, `Except.ok none` an engine
returning `None`). -/
structure HoverEnv (Image : Type) where
  dpiScale : ℚ
  seg : List Char → List Tok
  screenAt : PtZ → Bool
  grabWindow : ℤ → ℤ → ℕ → ℕ → Option Image
  process_image : Image → Except String (Option (List Frag))

/-- `OCRProcessor._adjust_capture_size`: `int(width * dpi_scale)` (truncation;
for the nonnegative sizes and scales of the tool this is the floor). -/
def _adjust_capture_size (dpiScale : ℚ) (width height : ℕ) : ℕ × ℕ :=
  ((⌊(width : ℚ) * dpiScale⌋).toNat, (⌊(height : ℚ) * dpiScale⌋).toNat)

/-- `HoverTool._create_capture_region`: region centered on the point,
`x = pos.x() - width // 2`. -/
def _create_capture_region (pos : PtZ) (width height : ℕ) : CaptureRect :=
  ⟨pos.x - (width / 2 : ℕ), pos.y - (height / 2 : ℕ), width, height⟩

/-- `OCRProcessor.capture_at_position`: `None` when no screen is found at the
point or the screenshot is null; otherwise whatever the OCR engine returns
(a raised engine exception propagates). -/
def capture_at_position {Image : Type} (env : HoverEnv Image) (pos : PtZ)
    (width height : ℕ) : Except String (Option (List Frag)) :=
  if env.screenAt pos then
    let x := pos.x - (width / 2 : ℕ)
    let y := pos.y - (height / 2 : ℕ)
    match env.grabWindow x y width height with
    | none => .ok none
    | some img => env.process_image img
  else .ok none

/-- `HoverTool._is_valid_ocr_result`: at least one fragment passes the
length/confidence thresholds. -/
def _is_valid_ocr_result (ocr_result : Option (List Frag)) : Bool :=
  match ocr_result with
  | none => false
  | some l => decide (0 < (l.filter WordSelector.fragPasses).length)

/-- `WordSelector.select_word_at_position`: filter, translate the mouse into
capture-relative coordinates, pick the text box, pick the word inside it;
`selected_word or text` falls back to the whole fragment text when the word
selection returns `None` (or an empty, falsy, string). -/
def select_word_at_position (seg : List Char → List Tok) (ocr_results : Option (List Frag))
    (mouse_pos : PtZ) (capture_rect : CaptureRect) : Option (List Char) :=
  match ocr_results with
  | none => none
  | some rs =>
    if rs = [] then none
    else
      let filtered_results := WordSelector.filter_fragments rs
      if filtered_results = [] then none
      else
        let relative_mouse_pos : Pt :=
          ⟨((mouse_pos.x - capture_rect.x : ℤ) : ℚ), ((mouse_pos.y - capture_rect.y : ℤ) : ℚ)⟩
        match WordSelector._find_text_box_at_mouse filtered_results relative_mouse_pos with
        | none => none
        | some tb =>
          match WordSelector._select_word_from_text seg tb.text tb.box relative_mouse_pos with
          | some w => if w = [] then some tb.text else some w
          | none => some tb.text

/-- A terminal outcome of `capture_text_at_position`, i.e. which signal the
tool emits: the recognised word, the "未能识别到文本" not-found status, or the
"取词失败: …" status produced by the top-level `except`. -/
inductive Outcome where
  | found (word : List Char)
  | notFound
  | error (e : String)
deriving DecidableEq

/-- The status string `status_changed` emits for each terminal outcome. -/
def statusMessage : Outcome → String
  | .found _ => "成功识别文本并复制到剪贴板"
  | .notFound => "未能识别到文本"
  | .error e => "取词失败: " ++ e

/-- Result of one iteration of the tier loop: proceed to the next size, or
leave the loop with a terminal outcome (successful `return`, or an exception
reaching the top-level handler). -/
inductive TierOut where
  | next
  | stop (o : Outcome)
deriving DecidableEq

/-- One iteration of the size loop in `HoverTool.capture_text_at_position`:
adjust the size, build the region, capture + OCR, and if the result is valid
try to select a word.  The visual-feedback side effects of the source carry no
data and are not modelled. -/
def tierStep {Image : Type} (env : HoverEnv Image) (pos : PtZ) (size : ℕ × ℕ) : TierOut :=
  let adj := _adjust_capture_size env.dpiScale size.1 size.2
  let capture_rect := _create_capture_region pos adj.1 adj.2
  match capture_at_position env pos adj.1 adj.2 with
  | .error e => .stop (.error e)
  | .ok ocr_result =>
    if _is_valid_ocr_result ocr_result then
      match select_word_at_position env.seg ocr_result pos capture_rect with
      | some w => if w = [] then .next else .stop (.found w)
      | none => .next
    else .next

/-- The tier loop, instrumented with the list of size tiers for which the
capture capability was invoked (every entered iteration performs exactly one
capture call). -/
def runTiers {Image : Type} (env : HoverEnv Image) (pos : PtZ) :
    List (ℕ × ℕ) → Outcome × List (ℕ × ℕ)
  | [] => (.notFound, [])
  | s :: rest =>
    match tierStep env pos s with
    | .stop o => (o, [s])
    | .next =>
      let r := runTiers env pos rest
      (r.1, s :: r.2)

/-- The ordered size tiers of `capture_text_at_position`. -/
def size_configs : List (ℕ × ℕ) :=
  [CaptureConfig.SMALL_SIZE, CaptureConfig.MEDIUM_SIZE, CaptureConfig.LARGE_SIZE]

/-- `HoverTool.capture_text_at_position`: the whole tier loop inside one
`try`/`except`, together with the trace of capture invocations. -/
def capture_text_at_position {Image : Type} (env : HoverEnv Image) (pos : PtZ) :
    Outcome × List (ℕ × ℕ) :=
  runTiers env pos size_configs

/-! ### Concrete fragments and collaborator instances used by the example
theorems -/

/-- A jieba stub returning no tokens (never consulted by the examples, whose
texts dispatch to the whitespace tokenizer or whose value is irrelevant). -/
def segNone : List Char → List Tok := fun _ => []

/-- The string `"hello world"` of spec example 1. -/
def helloWorldText : List Char := ['h', 'e', 'l', 'l', 'o', ' ', 'w', 'o', 'r', 'l', 'd']

/-- The string `"world"`. -/
def worldText : List Char := ['w', 'o', 'r', 'l', 'd']

/-- The mixed-script string `"Hello世界"` of spec example 4. -/
def helloCjkText : List Char := ['H', 'e', 'l', 'l', 'o', '世', '界']

def fragA : Frag := ⟨['a'], ⟨0, 10, 0, 10⟩, 9/10⟩

def fragB : Frag := ⟨['b'], ⟨0, 10, 0, 10⟩, 8/10⟩

def fragC : Frag := ⟨['c'], ⟨0, 10, 0, 10⟩, 8/10⟩

def fragFar : Frag := ⟨['d'], ⟨100, 110, 0, 10⟩, 7/10⟩

def fragSmallHit : Frag := ⟨['h', 'i'], ⟨0, 200, 0, 80⟩, 9/10⟩

def fragMediumHit : Frag := ⟨['h', 'i'], ⟨0, 300, 0, 120⟩, 9/10⟩

/-- Capture environment whose small tier already yields a recognisable word
(the larger tiers would raise if they were ever consulted). -/
def envSmallHit : HoverEnv (ℕ × ℕ) :=
  { dpiScale := 1, seg := segNone, screenAt := fun _ => true,
    grabWindow := fun _ _ w h => some (w, h),
    process_image := fun i =>
      if i = (200, 80) then .ok (some [fragSmallHit]) else .error "later tier" }

/-- Capture environment whose small tier raises while the medium tier would
yield a recognisable word. -/
def envSmallBoom : HoverEnv (ℕ × ℕ) :=
  { dpiScale := 1, seg := segNone, screenAt := fun _ => true,
    grabWindow := fun _ _ w h => some (w, h),
    process_image := fun i =>
      if i = (200, 80) then .error "boom" else .ok (some [fragMediumHit]) }

/-- Capture environment whose OCR engine always raises. -/
def envAlwaysCrash : HoverEnv (ℕ × ℕ) :=
  { dpiScale := 1, seg := segNone, screenAt := fun _ => true,
    grabWindow := fun _ _ w h => some (w, h),
    process_image := fun _ => .error "crash" }

/-- Capture environment with no screen at any point. -/
def envNoScreen : HoverEnv (ℕ × ℕ) :=
  { dpiScale := 1, seg := segNone, screenAt := fun _ => false,
    grabWindow := fun _ _ w h => some (w, h),
    process_image := fun _ => .error "unreachable" }

/-! ## Properties of `pickBest` -/

theorem pickBest_eq_none {α : Type} (better : α → α → Bool) (l : List α) :
    pickBest better l = none ↔ l = [] := by
  cases l <;> simp [pickBest]

/-- Characterisation of Python's first-extremum-kept scan: `pickBest` returns
an element splitting the list so that everything strictly before it has a
strictly worse key and everything after a no-better key, provided `better`
decides the strict key order on the list's elements. -/
theorem pickBest_split {α β : Type} [LinearOrder β] (key : α → β) (better : α → α → Bool)
    (h : α) (t : List α)
    (H : ∀ x ∈ h :: t, ∀ y ∈ h :: t, (better x y = true ↔ key x < key y)) :
    ∃ l₁ r l₂, pickBest better (h :: t) = some r ∧ h :: t = l₁ ++ r :: l₂ ∧
      (∀ g ∈ l₁, key r < key g) ∧ (∀ g ∈ l₂, key r ≤ key g) := by
  induction t generalizing h with
  | nil => exact ⟨[], h, [], rfl, rfl, by simp, by simp⟩
  | cons x t ih =>
    have hstep : pickBest better (h :: x :: t) =
        pickBest better ((if better x h then x else h) :: t) := rfl
    by_cases hb : better x h = true
    · have hxh : key x < key h := (H x (by simp) h (by simp)).1 hb
      have H' : ∀ a ∈ x :: t, ∀ b ∈ x :: t, (better a b = true ↔ key a < key b) := by
        intro a ha b hb'
        exact H a (by simp only [List.mem_cons] at ha ⊢; tauto)
          b (by simp only [List.mem_cons] at hb' ⊢; tauto)
      obtain ⟨l₁, r, l₂, hpick, hsplit, h₁, h₂⟩ := ih x H'
      have hrh : key r < key h := by
        cases l₁ with
        | nil =>
          obtain ⟨rfl, -⟩ := List.cons.injEq .. ▸ hsplit
          exact hxh
        | cons a l₁' =>
          have ha : a = x := by
            have := congrArg (fun l => l.head?) hsplit
            simpa using this.symm
          exact lt_trans (h₁ a (by simp)) (ha ▸ hxh)
      refine ⟨h :: l₁, r, l₂, ?_, ?_, ?_, h₂⟩
      · rw [hstep, if_pos hb]; exact hpick
      · rw [List.cons_append, ← hsplit]
      · intro g hg
        rcases List.mem_cons.1 hg with rfl | hg
        · exact hrh
        · exact h₁ g hg
    · have hhx : key h ≤ key x := by
        have hx := H x (by simp) h (by simp)
        exact le_of_not_lt fun hlt => hb (hx.2 hlt)
      have H' : ∀ a ∈ h :: t, ∀ b ∈ h :: t, (better a b = true ↔ key a < key b) := by
        intro a ha b hb'
        exact H a (by simp only [List.mem_cons] at ha ⊢; tauto)
          b (by simp only [List.mem_cons] at hb' ⊢; tauto)
      obtain ⟨l₁, r, l₂, hpick, hsplit, h₁, h₂⟩ := ih h H'
      have hbneg : better x h = false := by simpa using hb
      cases l₁ with
      | nil =>
        have hr : h = r := by
          have := congrArg (fun l => l.head?) hsplit
          simpa using this
        have ht : t = l₂ := by
          have := congrArg (fun l => l.tail) hsplit
          simpa using this
        refine ⟨[], r, x :: l₂, ?_, ?_, by simp, ?_⟩
        · rw [hstep, if_neg (by simp [hbneg])]; exact hpick
        · simp [← hr, ← ht]
        · intro g hg
          rcases List.mem_cons.1 hg with rfl | hg
          · exact hr ▸ hhx
          · exact h₂ g hg
      | cons a l₁' =>
        have ha : a = h := by
          have := congrArg (fun l => l.head?) hsplit
          simpa using this.symm
        have ht : t = l₁' ++ r :: l₂ := by
          have := congrArg (fun l => l.tail) hsplit
          simpa using this
        have hrh : key r < key h := h₁ a (by simp) |>.trans_eq (by rw [ha])
        refine ⟨h :: x :: l₁', r, l₂, ?_, ?_, ?_, h₂⟩
        · rw [hstep, if_neg (by simp [hbneg])]; exact hpick
        · simp [ht]
        · intro g hg
          rcases List.mem_cons.1 hg with rfl | hg
          · exact hrh
          rcases List.mem_cons.1 hg with rfl | hg
          · exact lt_of_lt_of_le hrh hhx
          · exact h₁ g (by simp [hg])

/-- `pickBest` on a non-empty list returns a member that minimises the key. -/
theorem pickBest_min {α β : Type} [LinearOrder β] (key : α → β) (better : α → α → Bool)
    (l : List α) (hl : l ≠ [])
    (H : ∀ x ∈ l, ∀ y ∈ l, (better x y = true ↔ key x < key y)) :
    ∃ r, pickBest better l = some r ∧ r ∈ l ∧ ∀ g ∈ l, key r ≤ key g := by
  cases l with
  | nil => exact absurd rfl hl
  | cons h t =>
    obtain ⟨l₁, r, l₂, hpick, hsplit, h₁, h₂⟩ := pickBest_split key better h t H
    refine ⟨r, hpick, by rw [hsplit]; simp, ?_⟩
    intro g hg
    rw [hsplit] at hg
    rcases List.mem_append.1 hg with hg | hg
    · exact le_of_lt (h₁ g hg)
    rcases List.mem_cons.1 hg with rfl | hg
    · exact le_refl _
    · exact h₂ g hg

/-! ## Bridges between the exact comparators and the source's real-valued
comparisons -/

theorem distSqToBox_nonneg (p : Pt) (box : Box) : 0 ≤ WordSelector.distSqToBox p box :=
  add_nonneg (mul_self_nonneg _) (mul_self_nonneg _)

theorem wordDistSq_nonneg (box : Box) (avg : ℚ) (p : Pt) (t : Tok) :
    0 ≤ WordSelector.wordDistSq box avg p t :=
  add_nonneg (sq_nonneg _) (sq_nonneg _)

/-- Strict monotonicity of the square root transfers `<` on squared rational
distances to `<` on the source's real distances. -/
theorem sqrt_ratCast_lt {a b : ℚ} (ha : 0 ≤ a) :
    (Real.sqrt (a : ℝ) < Real.sqrt (b : ℝ) ↔ a < b) := by
  rw [Real.sqrt_lt_sqrt_iff (by exact_mod_cast ha)]
  exact_mod_cast Iff.rfl

/-- Correctness of the exact comparator `sqrtLtAdd`: it decides
`√a < √b + u`. -/
theorem sqrtLtAdd_iff (a b u : ℚ) (ha : 0 ≤ a) (hb : 0 ≤ b) :
    WordSelector.sqrtLtAdd a b u = true ↔
      Real.sqrt (a : ℝ) < Real.sqrt (b : ℝ) + (u : ℝ) := by
  have har : (0 : ℝ) ≤ (a : ℝ) := by exact_mod_cast ha
  have hbr : (0 : ℝ) ≤ (b : ℝ) := by exact_mod_cast hb
  have hsa : 0 ≤ Real.sqrt (a : ℝ) := Real.sqrt_nonneg _
  have hsb : 0 ≤ Real.sqrt (b : ℝ) := Real.sqrt_nonneg _
  have hsa2 : Real.sqrt (a : ℝ) ^ 2 = (a : ℝ) := Real.sq_sqrt har
  have hsb2 : Real.sqrt (b : ℝ) ^ 2 = (b : ℝ) := Real.sq_sqrt hbr
  unfold WordSelector.sqrtLtAdd
  by_cases h1 : u ≤ 0 ∧ b ≤ u ^ 2
  · rw [if_pos h1]
    simp only [Bool.false_eq_true, false_iff, not_lt]
    have hu : (u : ℝ) ≤ 0 := by exact_mod_cast h1.1
    have hb2 : (b : ℝ) ≤ (u : ℝ) ^ 2 := by exact_mod_cast h1.2
    have hsble : Real.sqrt (b : ℝ) ≤ -(u : ℝ) := by
      have := Real.sqrt_le_sqrt hb2
      rwa [Real.sqrt_sq_eq_abs, abs_of_nonpos hu] at this
    linarith
  · rw [if_neg h1]
    have hpos : 0 < Real.sqrt (b : ℝ) + (u : ℝ) := by
      rcases le_or_lt u 0 with hu | hu
      · have hb2 : ¬(b ≤ u ^ 2) := fun hc => h1 ⟨hu, hc⟩
        push_neg at hb2
        have hub : (u : ℝ) ^ 2 < (b : ℝ) := by exact_mod_cast hb2
        have := Real.sqrt_lt_sqrt (sq_nonneg ((u : ℝ))) hub
        rw [Real.sqrt_sq_eq_abs, abs_of_nonpos (by exact_mod_cast hu)] at this
        linarith
      · have : (0 : ℝ) < (u : ℝ) := by exact_mod_cast hu
        linarith
    have hiff : Real.sqrt (a : ℝ) < Real.sqrt (b : ℝ) + (u : ℝ) ↔
        (a : ℝ) < (Real.sqrt (b : ℝ) + (u : ℝ)) ^ 2 := Real.sqrt_lt' hpos
    by_cases hu : 0 ≤ u
    · rw [if_pos hu]
      have hur : (0 : ℝ) ≤ (u : ℝ) := by exact_mod_cast hu
      simp only [Bool.or_eq_true, decide_eq_true_eq]
      rw [hiff]
      constructor
      · rintro (hc | hc)
        · have hcr : (a : ℝ) - (b : ℝ) - (u : ℝ) ^ 2 < 0 := by
            have : ((a - b - u ^ 2 : ℚ) : ℝ) < 0 := by exact_mod_cast hc
            push_cast at this; linarith
          nlinarith [mul_nonneg (mul_nonneg (by norm_num : (0:ℝ) ≤ 2) hur) hsb]
        · have hcr : ((a : ℝ) - (b : ℝ) - (u : ℝ) ^ 2) ^ 2 <
              4 * (u : ℝ) ^ 2 * (b : ℝ) := by
            have : (((a - b - u ^ 2) ^ 2 : ℚ) : ℝ) < ((4 * u ^ 2 * b : ℚ) : ℝ) := by
              exact_mod_cast hc
            push_cast at this; linarith
          nlinarith [mul_nonneg (mul_nonneg (by norm_num : (0:ℝ) ≤ 2) hur) hsb,
            sq_nonneg ((a : ℝ) - (b : ℝ) - (u : ℝ) ^ 2 + 2 * (u : ℝ) * Real.sqrt (b : ℝ))]
      · intro hc
        by_cases hneg : a - b - u ^ 2 < 0
        · exact Or.inl hneg
        · right
          push_neg at hneg
          have hnegr : (0 : ℝ) ≤ (a : ℝ) - (b : ℝ) - (u : ℝ) ^ 2 := by
            have : ((0 : ℚ) : ℝ) ≤ ((a - b - u ^ 2 : ℚ) : ℝ) := by exact_mod_cast hneg
            push_cast at this; linarith
          have : ((a - b - u ^ 2 : ℚ) : ℝ) ^ 2 < ((4 * u ^ 2 * b : ℚ) : ℝ) := by
            push_cast
            nlinarith [mul_nonneg (mul_nonneg (by norm_num : (0:ℝ) ≤ 2) hur) hsb]
          exact_mod_cast this
    · rw [if_neg hu]
      push_neg at hu
      have hur : (u : ℝ) < 0 := by exact_mod_cast hu
      simp only [Bool.and_eq_true, decide_eq_true_eq]
      rw [hiff]
      constructor
      · rintro ⟨hc1, hc2⟩
        have hc1r : (a : ℝ) - (b : ℝ) - (u : ℝ) ^ 2 < 0 := by
          have : ((a - b - u ^ 2 : ℚ) : ℝ) < 0 := by exact_mod_cast hc1
          push_cast at this; linarith
        have hc2r : 4 * (u : ℝ) ^ 2 * (b : ℝ) <
            ((a : ℝ) - (b : ℝ) - (u : ℝ) ^ 2) ^ 2 := by
          have : ((4 * u ^ 2 * b : ℚ) : ℝ) < (((a - b - u ^ 2) ^ 2 : ℚ) : ℝ) := by
            exact_mod_cast hc2
          push_cast at this; linarith
        nlinarith [mul_nonpos_of_nonpos_of_nonneg (by linarith : 2 * (u : ℝ) ≤ 0) hsb,
          sq_nonneg ((a : ℝ) - (b : ℝ) - (u : ℝ) ^ 2 - 2 * (u : ℝ) * Real.sqrt (b : ℝ))]
      · intro hc
        have ht : 2 * (u : ℝ) * Real.sqrt (b : ℝ) ≤ 0 :=
          mul_nonpos_of_nonpos_of_nonneg (by linarith) hsb
        have hlt : (a : ℝ) - (b : ℝ) - (u : ℝ) ^ 2 < 2 * (u : ℝ) * Real.sqrt (b : ℝ) := by
          nlinarith
        constructor
        · have : ((a - b - u ^ 2 : ℚ) : ℝ) < 0 := by push_cast; linarith
          exact_mod_cast this
        · have : ((4 * u ^ 2 * b : ℚ) : ℝ) < (((a - b - u ^ 2) ^ 2 : ℚ) : ℝ) := by
            push_cast
            nlinarith
          exact_mod_cast this

/-- Correctness of `scoreLt`: it decides the source's comparison of
`distance * 2 - confidence` scores, with the distances `√dsqᵢ`. -/
theorem scoreLt_iff (dsq₁ conf₁ dsq₂ conf₂ : ℚ) (h₁ : 0 ≤ dsq₁) (h₂ : 0 ≤ dsq₂) :
    WordSelector.scoreLt dsq₁ conf₁ dsq₂ conf₂ = true ↔
      Real.sqrt (dsq₁ : ℝ) * 2 - (conf₁ : ℝ) < Real.sqrt (dsq₂ : ℝ) * 2 - (conf₂ : ℝ) := by
  unfold WordSelector.scoreLt
  rw [sqrtLtAdd_iff _ _ _ h₁ h₂]
  push_cast
  constructor <;> intro <;> linarith

/-! ## The `\S+` scan computes the maximal non-whitespace runs -/

namespace TextProcessor

theorem spaceRunsAux_spec (cs : List Char) :
    (∀ i, spaceRunsAux cs i [] i = maximalRuns cs i) ∧
    (∀ i acc start, acc ≠ [] →
      spaceRunsAux cs i acc start =
        (acc.reverse ++ cs.takeWhile (fun d => !pySpace d), start,
          i + (cs.takeWhile (fun d => !pySpace d)).length) ::
        maximalRuns (cs.dropWhile (fun d => !pySpace d))
          (i + (cs.takeWhile (fun d => !pySpace d)).length)) := by
  induction cs with
  | nil =>
    refine ⟨fun i => by simp [spaceRunsAux, maximalRuns], fun i acc start hacc => ?_⟩
    simp [spaceRunsAux, maximalRuns, hacc]
  | cons c cs ih =>
    refine ⟨fun i => ?_, fun i acc start hacc => ?_⟩
    · by_cases hc : pySpace c
      · have hl : spaceRunsAux (c :: cs) i [] i = spaceRunsAux cs (i + 1) [] (i + 1) := by
          simp [spaceRunsAux, hc]
        have hr : maximalRuns (c :: cs) i = maximalRuns cs (i + 1) := by
          rw [maximalRuns]; simp [hc]
        rw [hl, hr, ih.1]
      · have hl : spaceRunsAux (c :: cs) i [] i = spaceRunsAux cs (i + 1) [c] i := by
          simp [spaceRunsAux, hc]
        rw [hl, ih.2 (i + 1) [c] i (by simp), maximalRuns]
        simp only [hc, if_false, Bool.false_eq_true]
        have : i + 1 + (cs.takeWhile (fun d => !pySpace d)).length =
            i + (c :: cs.takeWhile (fun d => !pySpace d)).length := by
          simp [List.length_cons]; omega
        rw [this]
        simp
    · by_cases hc : pySpace c
      · have hl : spaceRunsAux (c :: cs) i acc start =
            (acc.reverse, start, i) :: spaceRunsAux cs (i + 1) [] (i + 1) := by
          simp [spaceRunsAux, hc, hacc]
        have htw : (c :: cs).takeWhile (fun d => !pySpace d) = [] := by
          simp [List.takeWhile_cons, hc]
        have hdw : (c :: cs).dropWhile (fun d => !pySpace d) = c :: cs := by
          simp [List.dropWhile_cons, hc]
        rw [hl, ih.1]
        have hr : maximalRuns (c :: cs) i = maximalRuns cs (i + 1) := by
          rw [maximalRuns]; simp [hc]
        rw [htw, hdw]
        simp [hr]
      · have hl : spaceRunsAux (c :: cs) i acc start =
            spaceRunsAux cs (i + 1) (c :: acc) start := by
          simp [spaceRunsAux, hc, hacc]
        have htw : (c :: cs).takeWhile (fun d => !pySpace d) =
            c :: cs.takeWhile (fun d => !pySpace d) := by
          simp [List.takeWhile_cons, hc]
        have hdw : (c :: cs).dropWhile (fun d => !pySpace d) =
            cs.dropWhile (fun d => !pySpace d) := by
          simp [List.dropWhile_cons, hc]
        rw [hl, ih.2 (i + 1) (c :: acc) start (by simp), htw, hdw]
        have hlen : i + 1 + (cs.takeWhile (fun d => !pySpace d)).length =
            i + (c :: cs.takeWhile (fun d => !pySpace d)).length := by
          simp [List.length_cons]; omega
        rw [hlen]
        simp

theorem spaceRuns_eq_maximalRuns (text : List Char) :
    spaceRuns text = maximalRuns text 0 :=
  (spaceRunsAux_spec text).1 0

/-- Every `\S+` match is a non-empty run of non-whitespace characters. -/
theorem spaceRunsAux_words (cs : List Char) :
    ∀ i acc start, (∀ c ∈ acc, pySpace c = false) →
      ∀ t ∈ spaceRunsAux cs i acc start, t.1 ≠ [] ∧ ∀ c ∈ t.1, pySpace c = false := by
  induction cs with
  | nil =>
    intro i acc start hacc t ht
    by_cases h : acc = []
    · simp [spaceRunsAux, h] at ht
    · simp only [spaceRunsAux, if_neg h, List.mem_singleton] at ht
      subst ht
      refine ⟨by simpa using h, ?_⟩
      intro c hc
      exact hacc c (List.mem_reverse.1 hc)
  | cons c cs ih =>
    intro i acc start hacc t ht
    by_cases hc : pySpace c
    · simp only [spaceRunsAux, hc, if_true, List.mem_append] at ht
      rcases ht with ht | ht
      · by_cases h : acc = []
        · simp [h] at ht
        · simp only [if_neg h, List.mem_singleton] at ht
          subst ht
          refine ⟨by simpa using h, ?_⟩
          intro d hd
          exact hacc d (List.mem_reverse.1 hd)
      · exact ih (i + 1) [] (i + 1) (by simp) t ht
    · simp only [spaceRunsAux, hc, if_false, Bool.false_eq_true] at ht
      refine ih (i + 1) (c :: acc) (if acc = [] then i else start) ?_ t ht
      intro d hd
      rcases List.mem_cons.1 hd with rfl | hd
      · simpa using hc
      · exact hacc d hd

theorem pyStrip_of_nonspace {cs : List Char} (h : ∀ c ∈ cs, pySpace c = false) :
    pyStrip cs = cs := by
  unfold pyStrip
  have h₁ : cs.dropWhile pySpace = cs := by
    cases cs with
    | nil => rfl
    | cons c cs' => rw [List.dropWhile_cons]; simp [h c (by simp)]
  rw [h₁]
  have h₂ : cs.reverse.dropWhile pySpace = cs.reverse := by
    cases hrev : cs.reverse with
    | nil => rfl
    | cons c cs' =>
      rw [List.dropWhile_cons]
      have hmem : c ∈ cs := by rw [← List.mem_reverse, hrev]; simp
      simp [h c hmem]
  rw [h₂, List.reverse_reverse]

end TextProcessor

/-! ## Tier-loop lemmas -/

theorem runTiers_stops {Image : Type} (env : HoverEnv Image) (pos : PtZ)
    (pre rest : List (ℕ × ℕ)) (sz : ℕ × ℕ) (o : Outcome)
    (hpre : ∀ t ∈ pre, tierStep env pos t = .next)
    (hsz : tierStep env pos sz = .stop o) :
    runTiers env pos (pre ++ sz :: rest) = (o, pre ++ [sz]) := by
  induction pre with
  | nil => simp [runTiers, hsz]
  | cons s pre ih =>
    have hs : tierStep env pos s = .next := hpre s (by simp)
    simp only [List.cons_append, runTiers, hs, List.append_eq]
    rw [ih fun t ht => hpre t (by simp [ht])]

theorem runTiers_all_next {Image : Type} (env : HoverEnv Image) (pos : PtZ)
    (l : List (ℕ × ℕ)) (h : ∀ s ∈ l, tierStep env pos s = .next) :
    runTiers env pos l = (.notFound, l) := by
  induction l with
  | nil => rfl
  | cons s l ih =>
    have hs : tierStep env pos s = .next := h s (by simp)
    simp only [runTiers, hs]
    rw [ih fun t ht => h t (by simp [ht])]

/-! ## Spatial Selector lemmas -/

/-- When some box contains the point, `_find_text_box_at_mouse` returns the
first candidate of maximal confidence among the containing boxes. -/
theorem find_inside_split (filtered_results : List Frag) (mouse_pos : Pt)
    (h : filtered_results.filter (fun g => WordSelector.boxContains g.box mouse_pos) ≠ []) :
    ∃ l₁ f l₂,
      WordSelector._find_text_box_at_mouse filtered_results mouse_pos = some f ∧
      filtered_results.filter (fun g => WordSelector.boxContains g.box mouse_pos) =
        l₁ ++ f :: l₂ ∧
      (∀ g ∈ l₁, g.conf < f.conf) ∧ (∀ g ∈ l₂, g.conf ≤ f.conf) := by
  cases hcase :
      filtered_results.filter (fun g => WordSelector.boxContains g.box mouse_pos) with
  | nil => exact absurd hcase h
  | cons a t =>
    have H : ∀ x ∈ a :: t, ∀ y ∈ a :: t,
        ((fun (x best : Frag) => decide (best.conf < x.conf)) x y = true ↔
          (fun f : Frag => -f.conf) x < (fun f : Frag => -f.conf) y) := by
      intro x _ y _
      simp
    obtain ⟨l₁, r, l₂, hpick, hsplit, h₁, h₂⟩ :=
      pickBest_split (β := ℚ) (fun f : Frag => -f.conf)
        (fun x best => decide (best.conf < x.conf)) a t H
    refine ⟨l₁, r, l₂, ?_, hsplit, ?_, ?_⟩
    · simp only [WordSelector._find_text_box_at_mouse]
      rw [hcase, hpick]
    · intro g hg
      have := h₁ g hg
      simpa using this
    · intro g hg
      have := h₂ g hg
      simpa using this

/-- Dispatch helper: Latin-only text goes to the whitespace tokenizer. -/
theorem tokenize_text_of_latin_only (seg : List Char → List Tok) (text : List Char)
    (h : TextProcessor.detect_language text = (true, false)) :
    TextProcessor.tokenize_text seg text = TextProcessor._space_tokenize text := by
  simp [TextProcessor.tokenize_text, h]

/-! ## The claims -/

/-- **C9** (Candidate Filter idempotence): filtering a fragment list with the
fixed thresholds (`confidence >= CONFIDENCE_THRESHOLD` and
`len(trim(text)) >= MIN_TEXT_LENGTH`) twice yields the same result as
filtering once, and the result is a sublist of the input, hence preserves the
input's relative order. -/
theorem C9_filter_idempotent_ordered (ocr_results : List Frag) :
    WordSelector.filter_fragments (WordSelector.filter_fragments ocr_results) =
      WordSelector.filter_fragments ocr_results ∧
    (WordSelector.filter_fragments ocr_results).Sublist ocr_results := by
  constructor
  · simp [WordSelector.filter_fragments, List.filter_filter]
  · exact List.filter_sublist _

/-- **C8** (tokenizer dispatch): `tokenize_text` uses jieba segmentation when
the text has both an ASCII letter and a CJK-range code point, whitespace
tokenization when it has an ASCII letter and no CJK code point, and jieba
segmentation when it has no ASCII letter; in particular `"Hello世界"`
dispatches to jieba segmentation. -/
theorem C8_tokenizer_dispatch (seg : List Char → List Tok) (text : List Char) :
    ((∃ c ∈ text, ('a' ≤ c ∧ c ≤ 'z') ∨ ('A' ≤ c ∧ c ≤ 'Z')) →
      (∃ c ∈ text, (0x4e00 ≤ c.toNat ∧ c.toNat ≤ 0x9fff) ∨
        (0x3400 ≤ c.toNat ∧ c.toNat ≤ 0x4dbf) ∨
        (0x3000 ≤ c.toNat ∧ c.toNat ≤ 0x303f) ∨
        (0xff00 ≤ c.toNat ∧ c.toNat ≤ 0xffef)) →
      TextProcessor.tokenize_text seg text = TextProcessor._jieba_tokenize seg text) ∧
    ((∃ c ∈ text, ('a' ≤ c ∧ c ≤ 'z') ∨ ('A' ≤ c ∧ c ≤ 'Z')) →
      (¬ ∃ c ∈ text, (0x4e00 ≤ c.toNat ∧ c.toNat ≤ 0x9fff) ∨
        (0x3400 ≤ c.toNat ∧ c.toNat ≤ 0x4dbf) ∨
        (0x3000 ≤ c.toNat ∧ c.toNat ≤ 0x303f) ∨
        (0xff00 ≤ c.toNat ∧ c.toNat ≤ 0xffef)) →
      TextProcessor.tokenize_text seg text = TextProcessor._space_tokenize text) ∧
    ((¬ ∃ c ∈ text, ('a' ≤ c ∧ c ≤ 'z') ∨ ('A' ≤ c ∧ c ≤ 'Z')) →
      TextProcessor.tokenize_text seg text = TextProcessor._jieba_tokenize seg text) ∧
    TextProcessor.tokenize_text seg helloCjkText =
      TextProcessor._jieba_tokenize seg helloCjkText := by
  have hEng : (text.any TextProcessor.isEnglishChar = true) ↔
      (∃ c ∈ text, ('a' ≤ c ∧ c ≤ 'z') ∨ ('A' ≤ c ∧ c ≤ 'Z')) := by
    simp [List.any_eq_true, TextProcessor.isEnglishChar]
  have hCjk : (text.any TextProcessor.isCjkChar = true) ↔
      (∃ c ∈ text, (0x4e00 ≤ c.toNat ∧ c.toNat ≤ 0x9fff) ∨
        (0x3400 ≤ c.toNat ∧ c.toNat ≤ 0x4dbf) ∨
        (0x3000 ≤ c.toNat ∧ c.toNat ≤ 0x303f) ∨
        (0xff00 ≤ c.toNat ∧ c.toNat ≤ 0xffef)) := by
    simp only [List.any_eq_true, TextProcessor.isCjkChar, decide_eq_true_eq]
    constructor
    · rintro ⟨c, hc, h⟩; exact ⟨c, hc, by tauto⟩
    · rintro ⟨c, hc, h⟩; exact ⟨c, hc, by tauto⟩
  refine ⟨?_, ?_, ?_, ?_⟩
  · intro h1 h2
    have he : text.any TextProcessor.isEnglishChar = true := hEng.2 h1
    have hc : text.any TextProcessor.isCjkChar = true := hCjk.2 h2
    simp [TextProcessor.tokenize_text, TextProcessor.detect_language, he, hc]
  · intro h1 h2
    have he : text.any TextProcessor.isEnglishChar = true := hEng.2 h1
    have hc : text.any TextProcessor.isCjkChar = false := by
      cases h : text.any TextProcessor.isCjkChar
      · rfl
      · exact absurd (hCjk.1 h) h2
    simp [TextProcessor.tokenize_text, TextProcessor.detect_language, he, hc]
  · intro h1
    have he : text.any TextProcessor.isEnglishChar = false := by
      cases h : text.any TextProcessor.isEnglishChar
      · rfl
      · exact absurd (hEng.1 h) h1
    simp [TextProcessor.tokenize_text, TextProcessor.detect_language, he]
  · have hd : TextProcessor.detect_language helloCjkText = (true, true) := by decide
    simp [TextProcessor.tokenize_text, hd]

/-- Witness for C8: the mixed-script `"Hello世界"` has both an ASCII letter
and a CJK code point and dispatches to jieba segmentation. -/
theorem C8_tokenizer_dispatch_witness :
    TextProcessor.tokenize_text segNone helloCjkText =
      TextProcessor._jieba_tokenize segNone helloCjkText :=
  (C8_tokenizer_dispatch segNone helloCjkText).1 (by decide) (by decide)

/-- **C7 counterexample**: the claim's punctuation exclusion set contains the
fullwidth `！` (and `？`) where the source's list has ASCII `!` and `?`.  On
the single-character input `！` the source keeps the run while the claim's
tokenizer discards it. -/
theorem C7_counterexample :
    TextProcessor._space_tokenize ['！'] = [(['！'], 0, 1)] ∧
    TextProcessor.claimSpaceTokenize ['！'] = [] := by
  constructor
  · decide
  · have hsp : pySpace '！' = false := by decide
    have h1 : TextProcessor.maximalRuns ['！'] 0 = [(['！'], 0, 1)] := by
      rw [TextProcessor.maximalRuns]
      simp [hsp, TextProcessor.maximalRuns]
    rw [TextProcessor.claimSpaceTokenize, h1]
    decide

/-- **C7 (amended)**: `_space_tokenize` returns exactly the maximal runs of
non-whitespace characters, in left-to-right order of occurrence with their
start/end character offsets, except that every run consisting of a single
punctuation character from the source's exclusion set `，。!?,.;:"'` (ASCII
`!` and `?`, not the claim's fullwidth `！？`) is discarded. -/
theorem C7_space_tokenize_amended (text : List Char) :
    TextProcessor._space_tokenize text =
      (TextProcessor.maximalRuns text 0).filter fun t =>
        decide (¬(t.1.length = 1 ∧ t.1 ∈ TextProcessor.spacePunct)) := by
  unfold TextProcessor._space_tokenize
  rw [TextProcessor.spaceRuns_eq_maximalRuns]
  apply List.filter_congr
  intro t ht
  have htmem : t ∈ TextProcessor.spaceRunsAux text 0 [] 0 := by
    have := (TextProcessor.spaceRuns_eq_maximalRuns text).symm ▸ ht
    exact this
  have hw := TextProcessor.spaceRunsAux_words text 0 [] 0 (by simp) t htmem
  rw [TextProcessor.pyStrip_of_nonspace hw.2]
  rw [decide_eq_decide]
  constructor
  · tauto
  · intro hx
    exact ⟨hw.1, hx⟩

/-- **C2** (containment priority with inclusive bounds): for every filtered
fragment list and query point, if the point lies inside exactly one
fragment's bounding box — the containment test is inclusive on all four
boundaries, so a point with `x = max_x` counts as inside —
`_find_text_box_at_mouse` returns that fragment; when several boxes contain
the point it returns one of maximal confidence among them. -/
theorem C2_containment_priority (filtered_results : List Frag) (mouse_pos : Pt) :
    (∀ f, filtered_results.filter (fun g => WordSelector.boxContains g.box mouse_pos) = [f] →
      WordSelector._find_text_box_at_mouse filtered_results mouse_pos = some f) ∧
    (filtered_results.filter (fun g => WordSelector.boxContains g.box mouse_pos) ≠ [] →
      ∃ f, WordSelector._find_text_box_at_mouse filtered_results mouse_pos = some f ∧
        f ∈ filtered_results.filter (fun g => WordSelector.boxContains g.box mouse_pos) ∧
        ∀ g ∈ filtered_results.filter (fun g => WordSelector.boxContains g.box mouse_pos),
          g.conf ≤ f.conf) := by
  constructor
  · intro f hf
    simp only [WordSelector._find_text_box_at_mouse]
    rw [hf]
    simp [pickBest]
  · intro h
    obtain ⟨l₁, f, l₂, hfind, hsplit, h₁, h₂⟩ := find_inside_split filtered_results mouse_pos h
    refine ⟨f, hfind, by rw [hsplit]; simp, ?_⟩
    intro g hg
    rw [hsplit] at hg
    rcases List.mem_append.1 hg with hg | hg
    · exact le_of_lt (h₁ g hg)
    rcases List.mem_cons.1 hg with rfl | hg
    · exact le_refl _
    · exact h₂ g hg

/-- Witness for C2 at a query point lying exactly on the box's `max_x`
boundary (inclusive containment). -/
theorem C2_containment_priority_witness :
    WordSelector._find_text_box_at_mouse [fragA] ⟨10, 5⟩ = some fragA :=
  (C2_containment_priority [fragA] ⟨10, 5⟩).1 fragA (by with_unfolding_all decide)

/-- **C3** (influence-radius confinement): when no box contains the point but
some box expanded by `MOUSE_INFLUENCE_RADIUS` on all sides does, the selector
returns a fragment from that expanded-containment set — never one outside it —
minimising the score `distance_to_box * 2 - confidence`, where
`distance_to_box` is the Euclidean distance to the unexpanded box. -/
theorem C3_influence_radius (filtered_results : List Frag) (mouse_pos : Pt)
    (hin : ∀ f ∈ filtered_results, WordSelector.boxContains f.box mouse_pos = false)
    (hnear : ∃ f ∈ filtered_results, WordSelector.boxNearContains f.box mouse_pos = true) :
    ∃ f, WordSelector._find_text_box_at_mouse filtered_results mouse_pos = some f ∧
      f ∈ filtered_results ∧ WordSelector.boxNearContains f.box mouse_pos = true ∧
      ∀ g ∈ filtered_results, WordSelector.boxNearContains g.box mouse_pos = true →
        WordSelector._calculate_distance_to_box mouse_pos f.box * 2 - (f.conf : ℝ) ≤
          WordSelector._calculate_distance_to_box mouse_pos g.box * 2 - (g.conf : ℝ) := by
  have hfil :
      filtered_results.filter (fun g => WordSelector.boxContains g.box mouse_pos) = [] := by
    rw [List.filter_eq_nil_iff]
    intro a ha
    simp [hin a ha]
  set nearby :=
      (filtered_results.filter fun f => WordSelector.boxNearContains f.box mouse_pos).map
        (fun f => (f, WordSelector.distSqToBox mouse_pos f.box)) with hnb
  have hmemq : ∀ x ∈ nearby, x.2 = WordSelector.distSqToBox mouse_pos x.1.box ∧
      x.1 ∈ filtered_results ∧ WordSelector.boxNearContains x.1.box mouse_pos = true := by
    intro x hx
    rw [hnb] at hx
    obtain ⟨g, hg, rfl⟩ := List.mem_map.1 hx
    rw [List.mem_filter] at hg
    exact ⟨rfl, hg.1, hg.2⟩
  have hne : nearby ≠ [] := by
    obtain ⟨f, hf, hfn⟩ := hnear
    intro hc
    have : (f, WordSelector.distSqToBox mouse_pos f.box) ∈ nearby := by
      rw [hnb]
      exact List.mem_map_of_mem _ (List.mem_filter.2 ⟨hf, hfn⟩)
    rw [hc] at this
    exact absurd this (List.not_mem_nil _)
  have H : ∀ x ∈ nearby, ∀ y ∈ nearby,
      ((fun (x best : Frag × ℚ) => WordSelector.scoreLt x.2 x.1.conf best.2 best.1.conf)
          x y = true ↔
        (fun q : Frag × ℚ => Real.sqrt (q.2 : ℝ) * 2 - (q.1.conf : ℝ)) x <
          (fun q : Frag × ℚ => Real.sqrt (q.2 : ℝ) * 2 - (q.1.conf : ℝ)) y) := by
    intro x hx y hy
    have hx2 := (hmemq x hx).1
    have hy2 := (hmemq y hy).1
    simpa using scoreLt_iff x.2 x.1.conf y.2 y.1.conf
      (hx2 ▸ distSqToBox_nonneg _ _) (hy2 ▸ distSqToBox_nonneg _ _)
  obtain ⟨r, hpick, hrmem, hmin⟩ := pickBest_min (β := ℝ) _ _ nearby hne H
  obtain ⟨hr2, hrin, hrnear⟩ := hmemq r hrmem
  refine ⟨r.1, ?_, hrin, hrnear, ?_⟩
  · simp only [WordSelector._find_text_box_at_mouse]
    rw [hfil, ← hnb, hpick]
    simp [pickBest]
  · intro g hgin hgnear
    have hgm : (g, WordSelector.distSqToBox mouse_pos g.box) ∈ nearby := by
      rw [hnb]
      exact List.mem_map_of_mem _ (List.mem_filter.2 ⟨hgin, hgnear⟩)
    have hle := hmin _ hgm
    simp only [hr2] at hle
    unfold WordSelector._calculate_distance_to_box
    simpa using hle

/-- Witness for C3: the point `(12, 5)` lies in no box, is within the
influence radius of `fragA`'s box and outside that of `fragFar`'s. -/
theorem C3_influence_radius_witness :
    ∃ f, WordSelector._find_text_box_at_mouse [fragA, fragFar] ⟨12, 5⟩ = some f ∧
      f ∈ [fragA, fragFar] ∧ WordSelector.boxNearContains f.box ⟨12, 5⟩ = true ∧
      ∀ g ∈ [fragA, fragFar], WordSelector.boxNearContains g.box ⟨12, 5⟩ = true →
        WordSelector._calculate_distance_to_box ⟨12, 5⟩ f.box * 2 - (f.conf : ℝ) ≤
          WordSelector._calculate_distance_to_box ⟨12, 5⟩ g.box * 2 - (g.conf : ℝ) :=
  C3_influence_radius [fragA, fragFar] ⟨12, 5⟩
    (by with_unfolding_all decide) (by with_unfolding_all decide)

/-- **C10** (implicit; deterministic first-seen tie-breaking): among
containing boxes of equal maximal confidence the earliest in the list wins
(Python's `max` keeps the first maximum), and in the global nearest fallback
the strict `<` comparison keeps the earliest fragment of minimal distance;
the selector is a function of the input list including its order. -/
theorem C10_first_seen_tie_breaking (filtered_results : List Frag) (mouse_pos : Pt) :
    (filtered_results.filter (fun g => WordSelector.boxContains g.box mouse_pos) ≠ [] →
      ∃ l₁ f l₂,
        WordSelector._find_text_box_at_mouse filtered_results mouse_pos = some f ∧
        filtered_results.filter (fun g => WordSelector.boxContains g.box mouse_pos) =
          l₁ ++ f :: l₂ ∧
        (∀ g ∈ l₁, g.conf < f.conf) ∧ (∀ g ∈ l₂, g.conf ≤ f.conf)) ∧
    (filtered_results.filter (fun g => WordSelector.boxContains g.box mouse_pos) = [] →
      filtered_results.filter (fun g => WordSelector.boxNearContains g.box mouse_pos) = [] →
      filtered_results ≠ [] →
      ∃ l₁ f l₂,
        WordSelector._find_text_box_at_mouse filtered_results mouse_pos = some f ∧
        filtered_results = l₁ ++ f :: l₂ ∧
        (∀ g ∈ l₁, WordSelector._calculate_distance_to_box mouse_pos f.box <
          WordSelector._calculate_distance_to_box mouse_pos g.box) ∧
        (∀ g ∈ l₂, WordSelector._calculate_distance_to_box mouse_pos f.box ≤
          WordSelector._calculate_distance_to_box mouse_pos g.box)) := by
  constructor
  · exact find_inside_split filtered_results mouse_pos
  · intro hfil hnearf hne
    cases hcase : filtered_results with
    | nil => exact absurd hcase hne
    | cons a t =>
      rw [hcase] at hfil hnearf
      have H : ∀ x ∈ a :: t, ∀ y ∈ a :: t,
          ((fun (x best : Frag) =>
              decide (WordSelector.distSqToBox mouse_pos x.box <
                      WordSelector.distSqToBox mouse_pos best.box)) x y = true ↔
            (fun f : Frag => WordSelector._calculate_distance_to_box mouse_pos f.box) x <
              (fun f : Frag => WordSelector._calculate_distance_to_box mouse_pos f.box) y) := by
        intro x _ y _
        unfold WordSelector._calculate_distance_to_box
        rw [sqrt_ratCast_lt (distSqToBox_nonneg _ _)]
        simp
      obtain ⟨l₁, r, l₂, hpick, hsplit, h₁, h₂⟩ :=
        pickBest_split (β := ℝ)
          (fun f : Frag => WordSelector._calculate_distance_to_box mouse_pos f.box) _ a t H
      refine ⟨l₁, r, l₂, ?_, hsplit, h₁, h₂⟩
      simp only [WordSelector._find_text_box_at_mouse]
      rw [hfil, hnearf]
      simp only [List.map_nil, pickBest]
      exact hpick

/-- Witness for C10: two containing fragments of equal confidence; the split
certifies that the first one is selected. -/
theorem C10_first_seen_tie_breaking_witness :
    ∃ l₁ f l₂,
      WordSelector._find_text_box_at_mouse [fragB, fragC] ⟨5, 5⟩ = some f ∧
      [fragB, fragC].filter (fun g => WordSelector.boxContains g.box ⟨5, 5⟩) =
        l₁ ++ f :: l₂ ∧
      (∀ g ∈ l₁, g.conf < f.conf) ∧ (∀ g ∈ l₂, g.conf ≤ f.conf) :=
  (C10_first_seen_tie_breaking [fragB, fragC] ⟨5, 5⟩).1 (by with_unfolding_all decide)

/-- **C4** (Word Locator postcondition): for non-empty text, zero tokens make
`_select_word_from_text` return the full text unchanged; otherwise it returns
the text of a token minimising the Euclidean distance from the point to the
token's centre (spans from `avg_char_width = box_width / len(text)`, vertical
centre the box midpoint); in particular for `"hello world"`, box
`(0, 110, 0, 20)` and point `(75, 10)` it returns `"world"`. -/
theorem C4_word_locator (seg : List Char → List Tok) (text : List Char) (box : Box)
    (mouse_pos : Pt) :
    (text ≠ [] →
      (TextProcessor.tokenize_text seg text = [] →
        WordSelector._select_word_from_text seg text box mouse_pos = some text) ∧
      (TextProcessor.tokenize_text seg text ≠ [] →
        ∃ t ∈ TextProcessor.tokenize_text seg text,
          WordSelector._select_word_from_text seg text box mouse_pos = some t.1 ∧
          ∀ u ∈ TextProcessor.tokenize_text seg text,
            WordSelector.tokenCenterDist box text mouse_pos t ≤
              WordSelector.tokenCenterDist box text mouse_pos u)) ∧
    WordSelector._select_word_from_text seg helloWorldText ⟨0, 110, 0, 20⟩ ⟨75, 10⟩ =
      some worldText := by
  constructor
  · intro htext
    constructor
    · intro htok
      simp [WordSelector._select_word_from_text, htok]
    · intro htok
      cases htoks : TextProcessor.tokenize_text seg text with
      | nil => exact absurd htoks htok
      | cons a t =>
        have hlen : ¬(text.length = 0) := by
          simpa [List.length_eq_zero] using htext
        have H : ∀ x ∈ a :: t, ∀ y ∈ a :: t,
            ((fun (u best : Tok) =>
                decide (WordSelector.wordDistSq box ((box.maxX - box.minX) / (text.length : ℚ))
                    mouse_pos u <
                  WordSelector.wordDistSq box ((box.maxX - box.minX) / (text.length : ℚ))
                    mouse_pos best)) x y = true ↔
              WordSelector.tokenCenterDist box text mouse_pos x <
                WordSelector.tokenCenterDist box text mouse_pos y) := by
          intro x _ y _
          unfold WordSelector.tokenCenterDist
          rw [sqrt_ratCast_lt (wordDistSq_nonneg _ _ _ _)]
          simp
        obtain ⟨l₁, r, l₂, hpick, hsplit, h₁, h₂⟩ :=
          pickBest_split (β := ℝ)
            (fun u : Tok => WordSelector.tokenCenterDist box text mouse_pos u) _ a t H
        have hrmem : r ∈ a :: t := by rw [hsplit]; simp
        refine ⟨r, htoks ▸ hrmem, ?_, ?_⟩
        · simp only [WordSelector._select_word_from_text]
          rw [htoks, if_neg (List.cons_ne_nil a t), if_neg hlen, hpick]
        · intro u hu
          have hu2 : u ∈ l₁ ++ r :: l₂ := hsplit ▸ (htoks ▸ hu)
          rcases List.mem_append.1 hu2 with hu3 | hu3
          · exact le_of_lt (h₁ u hu3)
          rcases List.mem_cons.1 hu3 with rfl | hu3
          · exact le_refl _
          · exact h₂ u hu3
  · have hd : TextProcessor.detect_language helloWorldText = (true, false) := by decide
    have htokeq := tokenize_text_of_latin_only seg helloWorldText hd
    simp only [WordSelector._select_word_from_text, htokeq]
    with_unfolding_all decide

/-- Witness for C4, at `"hello world"`, box `(0, 110, 0, 20)` and point
`(75, 10)` (the minimising token is `("world", 6, 11)`). -/
theorem C4_word_locator_witness :
    ∃ t ∈ TextProcessor.tokenize_text segNone helloWorldText,
      WordSelector._select_word_from_text segNone helloWorldText ⟨0, 110, 0, 20⟩ ⟨75, 10⟩ =
        some t.1 ∧
      ∀ u ∈ TextProcessor.tokenize_text segNone helloWorldText,
        WordSelector.tokenCenterDist ⟨0, 110, 0, 20⟩ helloWorldText ⟨75, 10⟩ t ≤
          WordSelector.tokenCenterDist ⟨0, 110, 0, 20⟩ helloWorldText ⟨75, 10⟩ u :=
  ((C4_word_locator segNone helloWorldText ⟨0, 110, 0, 20⟩ ⟨75, 10⟩).1 (by decide)).2
    (by with_unfolding_all decide)

/-- **C5** (tier short-circuit): once a tier's capture yields a filtered OCR
result from which a word is selected (`tierStep … = .stop (.found w)`), the
operation returns immediately with that word and the capture capability is
never invoked for any larger tier: the invocation trace ends at the
successful tier. -/
theorem C5_tier_short_circuit {Image : Type} (env : HoverEnv Image) (pos : PtZ)
    (pre rest : List (ℕ × ℕ)) (sz : ℕ × ℕ) (w : List Char)
    (hcfg : size_configs = pre ++ sz :: rest)
    (hpre : ∀ t ∈ pre, tierStep env pos t = .next)
    (hsz : tierStep env pos sz = .stop (.found w)) :
    capture_text_at_position env pos = (.found w, pre ++ [sz]) := by
  unfold capture_text_at_position
  rw [hcfg]
  exact runTiers_stops env pos pre rest sz _ hpre hsz

/-- Witness for C5: the small tier already recognises `"hi"`; the medium and
large tiers (whose capture would raise) are never invoked. -/
theorem C5_tier_short_circuit_witness :
    capture_text_at_position envSmallHit ⟨0, 0⟩ =
      (.found ['h', 'i'], [CaptureConfig.SMALL_SIZE]) :=
  C5_tier_short_circuit envSmallHit ⟨0, 0⟩ []
    [CaptureConfig.MEDIUM_SIZE, CaptureConfig.LARGE_SIZE] CaptureConfig.SMALL_SIZE
    ['h', 'i'] rfl (by simp) (by with_unfolding_all decide)

/-- **C1 counterexample**: with a capture capability that raises at the small
tier and would recognise `"hi"` at the medium tier, `capture_text_at_position`
stops with the error outcome after invoking the capture for the small tier
only — the medium tier, although viable, is never attempted.  This refutes the
claim that an exception is treated as "this tier failed" with the remaining
larger tiers still attempted. -/
theorem C1_counterexample :
    capture_text_at_position envSmallBoom ⟨0, 0⟩ =
      (.error "boom", [CaptureConfig.SMALL_SIZE]) ∧
    tierStep envSmallBoom ⟨0, 0⟩ CaptureConfig.MEDIUM_SIZE = .stop (.found ['h', 'i']) := by
  constructor
  · with_unfolding_all decide
  · with_unfolding_all decide

/-- **C1 (amended)**: an exception raised by the capture-and-recognize call
during one tier is caught — by the `try/except` wrapping the *whole* tier
loop — so it never escapes `capture_text_at_position` and is surfaced as the
error status; but it terminates the whole operation: the remaining larger
tiers are *not* attempted (the trace stops at the raising tier). -/
theorem C1_exception_aborts_tiers {Image : Type} (env : HoverEnv Image) (pos : PtZ)
    (pre rest : List (ℕ × ℕ)) (sz : ℕ × ℕ) (e : String)
    (hcfg : size_configs = pre ++ sz :: rest)
    (hpre : ∀ t ∈ pre, tierStep env pos t = .next)
    (hsz : tierStep env pos sz = .stop (.error e)) :
    capture_text_at_position env pos = (.error e, pre ++ [sz]) := by
  unfold capture_text_at_position
  rw [hcfg]
  exact runTiers_stops env pos pre rest sz _ hpre hsz

/-- Witness for the amended C1: an engine that always raises stops the
operation at the small tier with the error status. -/
theorem C1_exception_aborts_tiers_witness :
    capture_text_at_position envAlwaysCrash ⟨0, 0⟩ =
      (.error "crash", [CaptureConfig.SMALL_SIZE]) :=
  C1_exception_aborts_tiers envAlwaysCrash ⟨0, 0⟩ []
    [CaptureConfig.MEDIUM_SIZE, CaptureConfig.LARGE_SIZE] CaptureConfig.SMALL_SIZE
    "crash" rfl (by simp) (by with_unfolding_all decide)

/-- **C6 counterexample**: when a tier's capture raises, the overall outcome
is the error status `取词失败: …`, not the NOT_FOUND status the claim
predicts for "all tiers fail, including due to errors" (and the remaining
tiers are not even attempted). -/
theorem C6_counterexample :
    capture_text_at_position envAlwaysCrash ⟨1, 1⟩ =
      (.error "crash", [CaptureConfig.SMALL_SIZE]) ∧
    Outcome.error "crash" ≠ Outcome.notFound ∧
    statusMessage (.error "crash") ≠ statusMessage .notFound := by
  refine ⟨by with_unfolding_all decide, by decide, by decide⟩

/-- **C6 (amended)**: `capture_text_at_position` is total — every run yields
an outcome carrying a status message, never an escaped exception; a missing
screen at the query point, or a null screenshot, makes `capture_at_position`
return `None`; a tier whose (adjusted-size) capture returns `None` yields
nothing and the loop proceeds to the next tier; and when every tier yields
nothing without raising, the overall outcome is NOT_FOUND with all tiers
attempted.  (A raising tier instead surfaces the error status and aborts the
remaining tiers — see C1.) -/
theorem C6_failure_totality {Image : Type} (env : HoverEnv Image) (pos : PtZ) :
    ((∀ sz ∈ size_configs, tierStep env pos sz = .next) →
      capture_text_at_position env pos = (.notFound, size_configs)) ∧
    (∀ width height, env.screenAt pos = false →
      capture_at_position env pos width height = .ok none) ∧
    (∀ width height,
      env.grabWindow (pos.x - (width / 2 : ℕ)) (pos.y - (height / 2 : ℕ)) width height = none →
      capture_at_position env pos width height = .ok none) ∧
    (∀ sz : ℕ × ℕ,
      capture_at_position env pos (_adjust_capture_size env.dpiScale sz.1 sz.2).1
        (_adjust_capture_size env.dpiScale sz.1 sz.2).2 = .ok none →
      tierStep env pos sz = .next) := by
  refine ⟨fun h => runTiers_all_next env pos size_configs h, ?_, ?_, ?_⟩
  · intro width height hs
    simp [capture_at_position, hs]
  · intro width height hg
    by_cases hs : env.screenAt pos
    · simp only [capture_at_position]
      rw [if_pos hs, hg]
    · simp only [capture_at_position]
      rw [if_neg hs]
  · intro sz hc
    simp [tierStep, hc, _is_valid_ocr_result]

/-- Witness for the amended C6: with no screen at the point every tier yields
nothing and the result is NOT_FOUND after all three tiers. -/
theorem C6_failure_totality_witness :
    capture_text_at_position envNoScreen ⟨5, 5⟩ = (.notFound, size_configs) ∧
    capture_at_position envNoScreen ⟨5, 5⟩ 30 30 = .ok none :=
  ⟨(C6_failure_totality envNoScreen ⟨5, 5⟩).1 (by with_unfolding_all decide),
   (C6_failure_totality envNoScreen ⟨5, 5⟩).2.1 30 30 (by decide)⟩

end OcrTool
